import Mathlib

/-!
Verification of the tag-parsing utilities of a tagging library
(`tagging/utils.py`, Python 2).  Strings are modelled as `List Char`
(Python unicode strings, one `Char` per code point); the regular
expressions in the source are hand-compiled into deterministic matchers
(each alternation in those patterns is first-character disjoint, and
every greedy repetition is cut off by a mandatory character that the
repetition itself excludes, so Python's backtracking never revisits a
choice that matters — the one cross-pattern interaction, between the
space and comma token patterns, is modelled explicitly in
`nextTokenPy`).  The token patterns all end in `(.*)$`, which fails
when the remainder holds a newline anywhere but at its very end; the
tokenizing loop then spins for ever, so the tokenizer and the parser
return `Option` values with `none` for non-termination.
-/

namespace Tagging

/-- Whitespace as recognised by the regex class `\s` in Python 2 without
the `re.UNICODE` flag: ASCII whitespace only. -/
def isPySpace (c : Char) : Bool :=
  c = ' ' || c = '\t' || c = '\n' || c = '\r' || c = '\x0b' || c = '\x0c'

/-- Whitespace as recognised by Python 2 `unicode.strip()`
(`Py_UNICODE_ISSPACE`, Unicode 5.2 data of CPython 2.7): the ASCII
whitespace and information separators together with NEL and the Unicode
space and line/paragraph separators.  Strictly larger than the regex
class `\s`: `U+001C`-`U+001F`, `U+0085`, `U+00A0`, `U+1680`, `U+180E`,
`U+2000`-`U+200A`, `U+2028`, `U+2029`, `U+202F`, `U+205F` and `U+3000`
are stripped but are ordinary characters to the token patterns. -/
def isStripSpace (c : Char) : Bool :=
  (9 ≤ c.toNat && c.toNat ≤ 13) || (28 ≤ c.toNat && c.toNat ≤ 32) ||
  c.toNat = 0x85 || c.toNat = 0xa0 || c.toNat = 0x1680 || c.toNat = 0x180e ||
  (0x2000 ≤ c.toNat && c.toNat ≤ 0x200a) || c.toNat = 0x2028 ||
  c.toNat = 0x2029 || c.toNat = 0x202f || c.toNat = 0x205f || c.toNat = 0x3000

/-- Python `input.replace('"', '')`. -/
def removeQuotes (input : List Char) : List Char :=
  input.filter (fun c => c ≠ '"')

/-- `normalize_tag_part` (utils.py lines 133-144): strip all double
quotes; empty result stays empty; a result containing `:` or `=`
(the `stop_chars`) is wrapped in double quotes. -/
def normalize_tag_part (input : List Char) : List Char :=
  if removeQuotes input = [] then []
  else if (removeQuotes input).contains ':' || (removeQuotes input).contains '=' then
    '"' :: removeQuotes input ++ ['"']
  else removeQuotes input

/-- The mutable scan state of `build_tag` (utils.py lines 94-116):
buffers `left`, `middle`, `right` and the separator markers `lms`,
`mrs`. -/
structure BTState where
  left : List (List Char)
  lms : Option Char
  middle : List (List Char)
  mrs : Option Char
  right : List (List Char)
deriving DecidableEq

/-- One iteration of the `for token in tokens` loop of `build_tag`. -/
def btStep (st : BTState) (token : List Char) : BTState :=
  match st.lms with
  | none =>
      if token = [':'] then { st with lms := some ':' }
      else if token = ['='] then
        if st.left ≠ [] then { st with lms := some '=' } else st
      else { st with left := st.left ++ [token] }
  | some sep =>
      if sep = ':' then
        match st.mrs with
        | none =>
            if token = ['='] then
              if st.middle ≠ [] then { st with mrs := some '=' } else st
            else { st with middle := st.middle ++ [token] }
        | some _ => { st with right := st.right ++ [token] }
      else
        { st with middle := st.middle ++ [token] }

/-- The final assembly of `build_tag` (utils.py lines 117-131). -/
def buildTagFinish (st : BTState) : List Char :=
  let parts :=
    if st.lms = some '=' then (([] : List (List Char)), st.left, st.middle)
    else if st.middle ≠ [] then (st.left, st.middle, st.right)
    else (([] : List (List Char)), st.left, ([] : List (List Char)))
  let ns := normalize_tag_part parts.1.flatten
  let nm := normalize_tag_part parts.2.1.flatten
  let vl := normalize_tag_part parts.2.2.flatten
  let nm := if ns ≠ [] then ns ++ ':' :: nm else nm
  if vl ≠ [] then nm ++ '=' :: vl else nm

/-- `build_tag` (utils.py lines 88-131).  `tokens` is the list of raw
token contents of one word; membership tests `':' not in tokens` are
element-wise string comparisons, as in Python. -/
def build_tag (tokens : List (List Char)) : List Char :=
  if ¬ tokens.contains [':'] ∧ ¬ tokens.contains ['='] then
    normalize_tag_part tokens.flatten
  else
    buildTagFinish (tokens.foldl btStep ⟨[], none, [], none, []⟩)

/-! ## Tokenizer

The four token regexes (utils.py lines 20-23), tried in priority order
`part`, `space`, `comma`, `char` on the current prefix of the input. -/

inductive Tok
  | part
  | space
  | comma
  | chr
deriving DecidableEq

/-- Maximal prefix of characters satisfying `p`, with the remainder
(the semantics of a greedy character-class repetition). -/
def takeRun (p : Char → Bool) : List Char → List Char × List Char
  | [] => ([], [])
  | c :: cs =>
      if p c then
        let r := takeRun p cs
        (c :: r.1, r.2)
      else ([], c :: cs)

/-- Character class `[^,\s:="]` of the `part` token's third alternative. -/
def isPartChar (c : Char) : Bool :=
  !(c = ',' || isPySpace c || c = ':' || c = '=' || c = '"')

/-- Character class `[^,\s:=]` of the `char` token's second alternative. -/
def isCharTokChar (c : Char) : Bool :=
  !(c = ',' || isPySpace c || c = ':' || c = '=')

/-- Match one token at the head of the (non-empty) input `c :: cs`:
the first of the patterns `part` (`[:=]|"[^"]*"|[^,\s:="]+`), `space`
(`\s+`), `comma` (`\s*,\s*`) and `char` (`[:=]|[^,\s:=]+`) that matches
a prefix wins; its match is consumed.  (When the head is whitespace the
`space` pattern has already matched, so the leading `\s*` of `comma` is
always empty here.) -/
def nextToken (c : Char) (cs : List Char) : (Tok × List Char) × List Char :=
  if c = ':' || c = '=' then ((.part, [c]), cs)
  else if c = '"' then
    let q := takeRun (fun d => d ≠ '"') cs
    match q.2 with
    | '"' :: rest => ((.part, '"' :: q.1 ++ ['"']), rest)
    | _ =>
        let r := takeRun isCharTokChar cs
        ((.chr, c :: r.1), r.2)
  else if isPySpace c then
    let r := takeRun isPySpace cs
    ((.space, c :: r.1), r.2)
  else if c = ',' then
    let r := takeRun isPySpace cs
    ((.comma, c :: r.1), r.2)
  else
    let r := takeRun isPartChar cs
    ((.part, c :: r.1), r.2)


/-- Proof device: the tokenizing loop as it behaves when every step's
`(.*)$` tail succeeds — the structural cascade alone.
`tokenizeGo_no_nl` below shows the real loop computes exactly these
tokens whenever the input holds no newline at all. -/
def tokenizeGoAux : ℕ → List Char → List (Tok × List Char)
  | 0, _ => []
  | _, [] => []
  | fuel + 1, c :: cs =>
      let t := nextToken c cs
      t.1 :: tokenizeGoAux fuel t.2

def tokenizeAux (input : List Char) : List (Tok × List Char) :=
  tokenizeGoAux input.length input

/-- The `(.*)$` tail shared by the four token patterns: with neither
`DOTALL` nor `MULTILINE`, `.` cannot cross a newline and `$` matches
only at the end of the string or just before a final newline, so the
pattern matches exactly when the remainder after the token is
newline-free up to one final newline — which the group then does not
capture, so the loop silently discards it.  `none`: the tail, and with
it the whole pattern, fails. -/
def remTail (rest : List Char) : Option (List Char) :=
  if rest.getLast? = some '\n' then
    if rest.dropLast.contains '\n' then none else some rest.dropLast
  else if rest.contains '\n' then none else some rest

/-- One iteration of the `while input:` loop (utils.py lines 57-64) on
the non-empty input `c :: cs`: the four patterns are tried in source
order and the first full match (structural prefix together with its
`(.*)$` tail) wins.  When a tail fails, moving characters of the
matched prefix back into the remainder cannot remove the newline that
broke it (no repetition in the patterns can consume a newline past the
remainder's interior), so the later patterns fail as well — with one
exception: on a whitespace head, `RE_SPACE_TOKEN` can fail on its tail
while `RE_COMMA_TOKEN` (`\s*,\s*`), whose trailing `\s*` swallows the
newlines after a comma, still matches.  `none`: no pattern matches, and
the loop repeats for ever on the unchanged input. -/
def nextTokenPy (c : Char) (cs : List Char) : Option ((Tok × List Char) × List Char) :=
  match remTail (nextToken c cs).2 with
  | some r => some ((nextToken c cs).1, r)
  | none =>
      if isPySpace c then
        match takeRun isPySpace (c :: cs) with
        | (ws1, ',' :: r2) =>
            match remTail (takeRun isPySpace r2).2 with
            | some r => some ((.comma, ws1 ++ ',' :: (takeRun isPySpace r2).1), r)
            | none => none
        | _ => none
      else none

/-- The `while input:` tokenizing loop of `parse_tag_input`
(utils.py lines 57-64).  Every successful iteration consumes at least
one character, so the input's length bounds the number of iterations;
`none` models the loop never terminating: no pattern matches some
reached remainder, which the loop then retries for ever. -/
def tokenizeGo : ℕ → List Char → Option (List (Tok × List Char))
  | _, [] => some []
  | 0, _ :: _ => none
  | fuel + 1, c :: cs =>
      match nextTokenPy c cs with
      | none => none
      | some (t, rest) => (tokenizeGo fuel rest).map (t :: ·)

def tokenize (input : List Char) : Option (List (Tok × List Char)) :=
  tokenizeGo input.length input


/-- The word-grouping loop of `parse_tag_input` (utils.py lines 71-83):
split the token list at every token of the delimiter kind, build a tag
from each word, and keep the non-empty results (in order, duplicates
included; deduplication and sorting happen afterwards). -/
def buildWords (delim : Tok) : List (Tok × List Char) → List (List Char) → List (List Char)
  | [], word =>
      let w := build_tag word
      if w ≠ [] then [w] else []
  | (t, content) :: rest, word =>
      if t = delim then
        let w := build_tag word
        if w ≠ [] then w :: buildWords delim rest []
        else buildWords delim rest []
      else buildWords delim rest (word ++ [content])

/-- Python's `<` on unicode strings: lexicographic comparison of the
code-point sequences. -/
def listLt : List Char → List Char → Bool
  | [], [] => false
  | [], _ :: _ => true
  | _ :: _, [] => false
  | a :: as, b :: bs =>
      if a < b then true
      else if b < a then false
      else listLt as bs

/-- Insert into a strictly sorted list, dropping an exact duplicate. -/
def insertSorted (x : List Char) : List (List Char) → List (List Char)
  | [] => [x]
  | y :: ys =>
      if x = y then y :: ys
      else if listLt x y then x :: y :: ys
      else y :: insertSorted x ys

/-- `list(set(words)); words.sort()`: the sorted list of the distinct
elements, Python's set-then-sort combination. -/
def sortUnique (l : List (List Char)) : List (List Char) :=
  l.foldr insertSorted []

/-- Python `input.split(sep)` for a one-character separator: split at
every occurrence, keeping empty pieces (always at least one piece). -/
def pySplit (sep : Char) : List Char → List (List Char)
  | [] => [[]]
  | c :: cs =>
      if c = sep then [] :: pySplit sep cs
      else
        match pySplit sep cs with
        | w :: ws => (c :: w) :: ws
        | [] => [[c]]

/-- Python 2 `unicode.strip()`: remove leading and trailing unicode
whitespace. -/
def pyStrip (cs : List Char) : List Char :=
  ((cs.dropWhile isStripSpace).reverse.dropWhile isStripSpace).reverse

/-- `split_strip` (utils.py lines 146-155): split on the delimiter,
strip each piece, drop the empty ones. -/
def split_strip (sep : Char) (input : List Char) : List (List Char) :=
  if input = [] then []
  else ((pySplit sep input).map pyStrip).filter (· ≠ [])

/-- The fast path of `parse_tag_input` (utils.py lines 43-47):
`sorted(set(split_strip(input, u' ')))`. -/
def fastPath (input : List Char) : List String :=
  (sortUnique (split_strip ' ' input)).map (·.asString)

/-- The general path of `parse_tag_input` (utils.py lines 49-86):
tokenize, choose the delimiter kind (comma if any loose comma token
appeared, space otherwise), group into words, build tags, dedupe, sort;
`none` when the tokenizing loop never terminates. -/
def tokenPath (input : List Char) : Option (List String) :=
  (tokenize input).map fun toks =>
    let delim : Tok := if toks.any (fun t => t.1 = .comma) then .comma else .space
    (sortUnique (buildWords delim toks [])).map (·.asString)

/-- `parse_tag_input` (utils.py lines 27-86).  The argument `none`
models Python `None`; the `if not input` guard sends both `None` and
`''` to `[]`.  The source skips tokenizing when none of `,`, `"`, `:`,
`=` occurs; on the tokenizing path the result is `none` when the
`while input:` loop never terminates. -/
def parse_tag_input (input : Option String) : Option (List String) :=
  match input with
  | none => some []
  | some s =>
      let cs := s.toList
      if cs = [] then some []
      else if cs.contains ',' || cs.contains '"' || cs.contains ':' || cs.contains '=' then
        tokenPath cs
      else
        some (fastPath cs)

/-! ## Tag-part splitter (`get_tag_parts`)

`RE_TAG_PARTS` (utils.py lines 322-326):
`(?:(?P<namespace>"[^"]+"|[^:="]+):)?(?P<name>"[^"]+"|[^="]+)(?:=(?P<value>"[^"]+"|[^"]+))?`
applied with `re.match` (a prefix match, not anchored at the end).
In each two-way alternation the quoted branch requires a leading `"`
and the run branch excludes `"`, so at most one branch applies at any
position; the only backtracking Python's engine ever performs here is
abandoning the whole optional namespace group when the following `:` or
the name fails, which the definitions below replay explicitly. -/

/-- Characters excluded by the namespace run `[^:="]`. -/
def nsBad (c : Char) : Bool := c = ':' || c = '=' || c = '"'

/-- Characters excluded by the name run `[^="]`. -/
def nameBad (c : Char) : Bool := c = '=' || c = '"'

/-- Characters excluded by the value run `[^"]`. -/
def valueBad (c : Char) : Bool := c = '"'

/-- The alternative `"[^"]+"`: an opening quote, a non-empty run without
quotes, a closing quote.  Returns the capture (quotes included) and the
remainder. -/
def matchQuoted (cs : List Char) : Option (List Char × List Char) :=
  match cs with
  | '"' :: rest =>
      let r := takeRun (fun d => d ≠ '"') rest
      match r.1, r.2 with
      | [], _ => none
      | inner, '"' :: rest2 => some ('"' :: inner ++ ['"'], rest2)
      | _, _ => none
  | _ => none

/-- One part group `"[^"]+"|[^X]+`: the quoted alternative first, then a
maximal non-empty run of characters outside the class `X` (which always
contains `"`). -/
def matchPart (bad : Char → Bool) (cs : List Char) : Option (List Char × List Char) :=
  match matchQuoted cs with
  | some r => some r
  | none =>
      let r := takeRun (fun c => !bad c) cs
      if r.1 = [] then none else some r

/-- The optional trailing group `(?:=(?P<value>"[^"]+"|[^"]+))?`: when the
remainder starts with `=` and a value part matches after it, capture it;
otherwise the group matches empty. -/
def matchValueOpt (cs : List Char) : Option (List Char) :=
  match cs with
  | d :: rest => if d = '=' then (matchPart valueBad rest).map (·.1) else none
  | [] => none

/-- The result of `RE_TAG_PARTS.match(tag).groupdict()`: the three named
groups, `namespace` and `value` possibly unmatched (`None`). -/
structure TagTriple where
  ns : Option (List Char)
  name : List Char
  value : Option (List Char)
deriving DecidableEq

/-- The namespace-bearing path of `RE_TAG_PARTS`: the namespace group,
its mandatory `:`, then a matching name and the optional value. -/
def nsAttempt (cs : List Char) : Option TagTriple :=
  match matchPart nsBad cs with
  | some (cap, d :: rest) =>
      if d = ':' then
        match matchPart nameBad rest with
        | some (ncap, rest2) => some ⟨some cap, ncap, matchValueOpt rest2⟩
        | none => none
      else none
  | _ => none

/-- `RE_TAG_PARTS.match`: try the namespace-bearing path first; if it
fails, the engine backtracks to the namespace-less path. -/
def reTagPartsMatch (cs : List Char) : Option TagTriple :=
  match nsAttempt cs with
  | some r => some r
  | none =>
      match matchPart nameBad cs with
      | some (ncap, rest2) => some ⟨none, ncap, matchValueOpt rest2⟩
      | none => none

/-- The quote removal of `get_tag_parts` (utils.py lines 337-339):
`value[1:-1]` when the group is non-empty and starts and ends with `"`. -/
def stripOuterQuotes (g : List Char) : List Char :=
  if g.head? = some '"' ∧ g.getLast? = some '"' then (g.drop 1).dropLast else g

/-- `get_tag_parts` (utils.py lines 328-340).  A string the pattern does
not match raises in Python (`.groupdict()` on `None`); that failure is
modelled as `none`. -/
def get_tag_parts (tag : List Char) : Option TagTriple :=
  (reTagPartsMatch tag).map fun p =>
    ⟨p.ns.map stripOuterQuotes, stripOuterQuotes p.name, p.value.map stripOuterQuotes⟩

/-! Spec-side grammar, following the claim's words: a whole string is
well-formed when it is `(namespace ':')? name ('=' value)?`, each piece a
double-quoted literal or a non-empty run excluding that piece's
delimiters. -/

/-- A full double-quoted literal: `"`, a non-empty quote-free run, `"`. -/
def isQuotedLit (cs : List Char) : Bool :=
  match cs with
  | '"' :: rest =>
      let r := takeRun (fun d => d ≠ '"') rest
      r.1 ≠ [] && r.2 = ['"']
  | _ => false

/-- A grammar piece: quoted literal or non-empty run outside `bad`. -/
def isPiece (bad : Char → Bool) (cs : List Char) : Bool :=
  isQuotedLit cs || (cs ≠ [] && cs.all (fun c => !bad c))

/-- The suffix grammar `name ('=' value)?`, as a whole-string property. -/
def matchesNameValue (cs : List Char) : Bool :=
  isPiece nameBad cs ||
    (List.range cs.length).any (fun i =>
      isPiece nameBad (cs.take i) && (cs.drop i).head? = some '=' &&
        isPiece valueBad (cs.drop (i + 1)))

/-- Following the claim's words: the string matches the grammar
`(namespace ':')? name ('=' value)?` in its entirety. -/
def matchesGrammar (cs : List Char) : Bool :=
  matchesNameValue cs ||
    (List.range cs.length).any (fun i =>
      isPiece nsBad (cs.take i) && (cs.drop i).head? = some ':' &&
        matchesNameValue (cs.drop (i + 1)))

/-! ## Serializer (`edit_string_for_tags`) -/

/-- A `Tag` record as the serializer reads it: the three attributes, each
possibly `None` (`getattr(tag, field) or ''` turns `None` into `''`). -/
structure TagRec where
  ns : Option (List Char)
  name : Option (List Char)
  value : Option (List Char)

/-- Per-field processing (utils.py lines 175-182): wrap the field in
double quotes when it contains one of `,`, `:`, `=`; report whether it
was quoted. -/
def renderField (f : List Char) : List Char × Bool :=
  if f.contains ',' || f.contains ':' || f.contains '=' then
    ('"' :: f ++ ['"'], true)
  else (f, false)

/-- The per-tag body of `edit_string_for_tags` (utils.py lines 174-190):
threading the accumulated rendered names and the `use_commas` flag. -/
def estStep (acc : List (List Char) × Bool) (tag : TagRec) : List (List Char) × Bool :=
  let nsRaw := tag.ns.getD []
  let nameRaw := tag.name.getD []
  let valueRaw := tag.value.getD []
  let nsF := renderField nsRaw
  let nameF := renderField nameRaw
  let valueF := renderField valueRaw
  let useCommas := acc.2
    || (!nsF.2 && nsRaw.contains ' ')
    || (!nameF.2 && nameRaw.contains ' ')
    || (!valueF.2 && valueRaw.contains ' ')
  let nm := nameF.1
  let nm := if nsF.1 ≠ [] then nsF.1 ++ ':' :: nm else nm
  let nm := if valueF.1 ≠ [] then nm ++ '=' :: valueF.1 else nm
  (acc.1 ++ [nm], useCommas)

/-- `edit_string_for_tags` (utils.py lines 157-195). -/
def edit_string_for_tags (tags : List TagRec) : List Char :=
  let r := tags.foldl estStep ([], false)
  let glue := if r.2 then [',', ' '] else [' ']
  List.intercalate glue r.1

/-- Following the claim's words: render `namespace:name=value`, omitting
absent parts, wrapping each part exactly when it contains `,`, `:` or
`=`. -/
def renderTagSpec (t : TagRec) : List Char :=
  let wrapIf : List Char → List Char := fun f =>
    if f.contains ',' || f.contains ':' || f.contains '=' then '"' :: f ++ ['"'] else f
  let base := wrapIf (t.name.getD [])
  let base := if t.ns.getD [] ≠ [] then wrapIf (t.ns.getD []) ++ ':' :: base else base
  if t.value.getD [] ≠ [] then base ++ '=' :: wrapIf (t.value.getD []) else base

/-- Following the claim's words: some part of the record is unquoted
(contains none of `,`, `:`, `=`) yet contains a space. -/
def hasUnquotedSpacePart (t : TagRec) : Bool :=
  [t.ns, t.name, t.value].any fun f =>
    let f := f.getD []
    !(f.contains ',' || f.contains ':' || f.contains '=') && f.contains ' '

/-- Following the claim's words: the whole serializer, built from
`renderTagSpec` and the glue decision. -/
def edit_string_spec (tags : List TagRec) : List Char :=
  let glue := if tags.any hasUnquotedSpacePart then [',', ' '] else [' ']
  List.intercalate glue (tags.map renderTagSpec)

/-! ## Length validator (`check_tag_length`) -/

/-- The four configured limits (`tagging.settings`). -/
structure TagSettings where
  MAX_TAG_LENGTH : ℕ
  MAX_TAG_NAME_LENGTH : ℕ
  MAX_TAG_NAMESPACE_LENGTH : ℕ
  MAX_TAG_VALUE_LENGTH : ℕ

/-- `check_tag_length` (utils.py lines 389-408); the `ValueError` payload
is modelled as the `(dimension, limit)` pair of its second and third
arguments. -/
def check_tag_length (st : TagSettings) (ns nm vl : Option (List Char)) :
    Except (String × ℕ) Unit :=
  let namespace_len := (ns.getD []).length
  let name_len := (nm.getD []).length
  let value_len := (vl.getD []).length
  let tag_len := name_len + namespace_len + value_len
  if tag_len > st.MAX_TAG_LENGTH then .error ("tag", st.MAX_TAG_LENGTH)
  else if name_len > st.MAX_TAG_NAME_LENGTH then .error ("name", st.MAX_TAG_NAME_LENGTH)
  else if namespace_len > st.MAX_TAG_NAMESPACE_LENGTH then
    .error ("namespace", st.MAX_TAG_NAMESPACE_LENGTH)
  else if value_len > st.MAX_TAG_VALUE_LENGTH then .error ("value", st.MAX_TAG_VALUE_LENGTH)
  else .ok ()

/-! ## Claim-side and auxiliary definitions -/

/-- Canonical rendering of a `(namespace, name, value)` triple: the final
assembly of `build_tag` (utils.py lines 124-131) applied to the three raw
parts — normalize each, then join as `namespace:name=value`, omitting the
absent parts. -/
def renderTriple (ns nm vl : List Char) : List Char :=
  if normalize_tag_part vl ≠ [] then
    (if normalize_tag_part ns ≠ [] then
      normalize_tag_part ns ++ ':' :: normalize_tag_part nm
    else normalize_tag_part nm) ++ '=' :: normalize_tag_part vl
  else if normalize_tag_part ns ≠ [] then
    normalize_tag_part ns ++ ':' :: normalize_tag_part nm
  else normalize_tag_part nm

/-- Following the claim's words: a `=` seen while `left` (respectively
`middle`) is still empty is kept as literal content — appended to that
buffer — instead of being discarded. -/
def btStepFold (st : BTState) (token : List Char) : BTState :=
  match st.lms with
  | none =>
      if token = [':'] then { st with lms := some ':' }
      else if token = ['='] then
        if st.left ≠ [] then { st with lms := some '=' }
        else { st with left := st.left ++ [token] }
      else { st with left := st.left ++ [token] }
  | some sep =>
      if sep = ':' then
        match st.mrs with
        | none =>
            if token = ['='] then
              if st.middle ≠ [] then { st with mrs := some '=' }
              else { st with middle := st.middle ++ [token] }
            else { st with middle := st.middle ++ [token] }
        | some _ => { st with right := st.right ++ [token] }
      else
        { st with middle := st.middle ++ [token] }

/-- Following the claim's words: `build_tag` with the folding behaviour. -/
def build_tag_fold (tokens : List (List Char)) : List Char :=
  if ¬ tokens.contains [':'] ∧ ¬ tokens.contains ['='] then
    normalize_tag_part tokens.flatten
  else
    buildTagFinish (tokens.foldl btStepFold ⟨[], none, [], none, []⟩)

/-- Split at every character satisfying `p`, keeping empty pieces
(the claim's "splitting on whitespace", before discarding empties). -/
def splitOnPred (p : Char → Bool) : List Char → List (List Char)
  | [] => [[]]
  | c :: cs =>
      if p c then [] :: splitOnPred p cs
      else
        match splitOnPred p cs with
        | w :: ws => (c :: w) :: ws
        | [] => [[c]]

/-- Following the claim's words: the non-empty words obtained by
splitting the input on whitespace. -/
def wsWords (cs : List Char) : List (List Char) :=
  (splitOnPred isPySpace cs).filter (· ≠ [])

/-- The input class of the fast-path claim, with only plain spaces as
whitespace: every character is an ordinary tag character that
`unicode.strip()` would keep, or `' '`.  (An ordinary tag character that
is unicode whitespace, such as `U+00A0`, already separates the two
paths: the fast path strips it, the tokenizer keeps it.) -/
def SimpleInput (cs : List Char) : Prop :=
  ∀ c ∈ cs, (isPartChar c = true ∧ isStripSpace c = false) ∨ c = ' '

instance (cs : List Char) : Decidable (SimpleInput cs) :=
  inferInstanceAs (Decidable (∀ c ∈ cs, (_ ∧ _) ∨ _))

/-! ## Helper lemmas: tokenizer fuel bound -/

theorem takeRun_snd_length (p : Char → Bool) (l : List Char) :
    (takeRun p l).2.length ≤ l.length := by
  induction l with
  | nil => simp [takeRun]
  | cons c cs ih =>
      by_cases h : p c
      · simp [takeRun, h]
        omega
      · simp [takeRun, h]

theorem takeRun_append (p : Char → Bool) (l : List Char) :
    (takeRun p l).1 ++ (takeRun p l).2 = l := by
  induction l with
  | nil => simp [takeRun]
  | cons c cs ih =>
      by_cases h : p c <;> simp [takeRun, h, ih]

theorem takeRun_snd_shape (p : Char → Bool) (l : List Char) :
    (takeRun p l).2 = [] ∨ ∃ d t, (takeRun p l).2 = d :: t ∧ p d = false := by
  induction l with
  | nil => left; rfl
  | cons c cs ih =>
      by_cases h : p c
      · simpa [takeRun, h] using ih
      · right
        exact ⟨c, cs, by simp [takeRun, h], by simpa using h⟩

theorem takeRun_fst_mem {p : Char → Bool} {l : List Char} {x : Char}
    (h : x ∈ (takeRun p l).1) : x ∈ l := by
  rw [← takeRun_append p l]
  exact List.mem_append.mpr (Or.inl h)

theorem takeRun_snd_mem {p : Char → Bool} {l : List Char} {x : Char}
    (h : x ∈ (takeRun p l).2) : x ∈ l := by
  rw [← takeRun_append p l]
  exact List.mem_append.mpr (Or.inr h)

theorem nextToken_snd_length (c : Char) (cs : List Char) :
    (nextToken c cs).2.length ≤ cs.length := by
  unfold nextToken
  split
  · simp
  · split
    · dsimp only
      split
      · rename_i q heq
        have h1 := takeRun_snd_length (fun d => d ≠ '"') cs
        rw [heq] at h1
        simp at h1 ⊢
        omega
      · exact takeRun_snd_length isCharTokChar cs
    · split
      · exact takeRun_snd_length isPySpace cs
      · split
        · exact takeRun_snd_length isPySpace cs
        · exact takeRun_snd_length isPartChar cs

theorem tokenizeGoAux_nil (fuel : ℕ) : tokenizeGoAux fuel [] = [] := by
  cases fuel <;> rfl

/-- Any fuel of at least `input.length` runs the tokenizing loop to
completion, so the fuel amount is irrelevant beyond that bound. -/
theorem tokenizeGoAux_congr (f g : ℕ) (input : List Char)
    (h₁ : input.length ≤ f) (h₂ : input.length ≤ g) :
    tokenizeGoAux f input = tokenizeGoAux g input := by
  induction f generalizing g input with
  | zero =>
      have hnil : input = [] := by
        cases input with
        | nil => rfl
        | cons c cs => simp at h₁
      subst hnil
      rw [tokenizeGoAux_nil, tokenizeGoAux_nil]
  | succ n ih =>
      cases input with
      | nil => rw [tokenizeGoAux_nil, tokenizeGoAux_nil]
      | cons c cs =>
          cases g with
          | zero => simp at h₂
          | succ m =>
              simp only [tokenizeGoAux]
              have hc := nextToken_snd_length c cs
              simp only [List.length_cons] at h₁ h₂
              rw [ih m ((nextToken c cs).2) (by omega) (by omega)]

/-- The remainder a structural token match leaves is made of input
characters. -/
theorem nextToken_snd_subset (c : Char) (cs : List Char) :
    ∀ x ∈ (nextToken c cs).2, x ∈ cs := by
  intro x hx
  unfold nextToken at hx
  split at hx
  · exact hx
  · split at hx
    · dsimp only at hx
      split at hx
      · rename_i q heq
        have h1 : x ∈ (takeRun (fun d => d ≠ '"') cs).2 := by
          rw [heq]
          simp [hx]
        exact takeRun_snd_mem h1
      · exact takeRun_snd_mem hx
    · split at hx
      · exact takeRun_snd_mem hx
      · split at hx
        · exact takeRun_snd_mem hx
        · exact takeRun_snd_mem hx

/-- A newline-free remainder satisfies the `(.*)$` tail unchanged. -/
theorem remTail_no_nl {rest : List Char} (h : '\n' ∉ rest) :
    remTail rest = some rest := by
  unfold remTail
  rw [if_neg, if_neg]
  · simp only [List.elem_eq_mem, decide_eq_true_eq]
    exact h
  · intro hlast
    exact h (List.mem_of_mem_getLast? hlast)

/-- On newline-free input every structural match's tail succeeds, so one
loop iteration is exactly the structural cascade. -/
theorem nextTokenPy_no_nl (c : Char) (cs : List Char) (h : '\n' ∉ cs) :
    nextTokenPy c cs = some (nextToken c cs) := by
  unfold nextTokenPy
  rw [remTail_no_nl (fun hx => h (nextToken_snd_subset c cs _ hx))]

/-- On newline-free input the tokenizing loop terminates and produces
the structural cascade's tokens. -/
theorem tokenizeGo_no_nl : ∀ (n : ℕ) (cs : List Char), cs.length ≤ n →
    '\n' ∉ cs → tokenizeGo n cs = some (tokenizeGoAux n cs) := by
  intro n
  induction n with
  | zero =>
      intro cs hlen _
      have hnil : cs = [] := by
        cases cs with
        | nil => rfl
        | cons c cs' => simp at hlen
      subst hnil
      rfl
  | succ n ih =>
      intro cs hlen hnl
      match cs with
      | [] => rfl
      | c :: cs' =>
          simp only [List.length_cons] at hlen
          have hnl' : '\n' ∉ cs' := fun hx => hnl (by simp [hx])
          simp only [tokenizeGo, tokenizeGoAux,
            nextTokenPy_no_nl c cs' hnl']
          rw [ih (nextToken c cs').2
            (le_trans (nextToken_snd_length c cs') (by omega))
            (fun hx => hnl' (nextToken_snd_subset c cs' _ hx))]
          rfl

theorem tokenize_no_nl {cs : List Char} (h : '\n' ∉ cs) :
    tokenize cs = some (tokenizeAux cs) :=
  tokenizeGo_no_nl cs.length cs le_rfl h

/-! ## Helper lemmas: sorted deduplicated output -/

theorem listLt_lex : ∀ (a b : List Char), listLt a b = true ↔ List.Lex (· < ·) a b := by
  intro a b
  induction a generalizing b with
  | nil =>
      match b with
      | [] =>
          simp only [listLt, Bool.false_eq_true, false_iff]
          intro h
          cases h
      | c :: cs =>
          simp only [listLt, true_iff]
          exact List.Lex.nil
  | cons x xs ih =>
      match b with
      | [] =>
          simp only [listLt, Bool.false_eq_true, false_iff]
          intro h
          cases h
      | y :: ys =>
          simp only [listLt]
          rcases lt_trichotomy x y with hxy | hxy | hxy
          · rw [if_pos hxy]
            simp only [true_iff]
            exact List.Lex.rel hxy
          · subst hxy
            rw [if_neg (lt_irrefl x), if_neg (lt_irrefl x)]
            rw [ih ys]
            constructor
            · exact fun h => List.Lex.cons h
            · intro h
              cases h with
              | cons h2 => exact h2
              | rel h2 => exact absurd h2 (lt_irrefl x)
          · rw [if_neg (asymm hxy), if_pos hxy]
            simp only [Bool.false_eq_true, false_iff]
            intro h
            cases h with
            | cons h2 => exact lt_irrefl _ hxy
            | rel h2 => exact asymm hxy h2

/-- `listLt` is Python's string comparison: the order of the rendered
strings. -/
theorem listLt_string (a b : List Char) :
    listLt a b = true ↔ a.asString < b.asString := by
  rw [String.lt_iff_toList_lt,
    show a.asString.toList = a from rfl, show b.asString.toList = b from rfl]
  exact listLt_lex a b

theorem asString_inj {a b : List Char} (h : a.asString = b.asString) : a = b := by
  have : a.asString.data = b.asString.data := by rw [h]
  simpa using this

theorem insertSorted_mem {z x : List Char} : ∀ {l : List (List Char)},
    z ∈ insertSorted x l → z = x ∨ z ∈ l := by
  intro l
  induction l with
  | nil => simp [insertSorted]
  | cons y ys ih =>
      intro hz
      by_cases hxy : x = y
      · simp only [insertSorted, if_pos hxy] at hz
        right; exact hz
      · by_cases hlt : listLt x y = true
        · simp only [insertSorted, if_neg hxy, if_pos hlt, List.mem_cons] at hz
          rcases hz with h | h | h
          · left; exact h
          · right; simp [h]
          · right; simp [h]
        · simp only [insertSorted, if_neg hxy, if_neg hlt, List.mem_cons] at hz
          rcases hz with h | h
          · right; simp [h]
          · rcases ih h with h' | h'
            · left; exact h'
            · right; simp [h']

theorem insertSorted_pairwise {x : List Char} : ∀ {l : List (List Char)},
    List.Pairwise (fun a b => a.asString < b.asString) l →
    List.Pairwise (fun a b => a.asString < b.asString) (insertSorted x l) := by
  intro l
  induction l with
  | nil => intro _; simp [insertSorted]
  | cons y ys ih =>
      intro hp
      rcases List.pairwise_cons.mp hp with ⟨hy, hys⟩
      by_cases hxy : x = y
      · simpa [insertSorted, hxy] using hp
      · by_cases hlt : listLt x y = true
        · simp only [insertSorted, if_neg hxy, if_pos hlt]
          refine List.pairwise_cons.mpr ⟨?_, hp⟩
          intro z hz
          have hxy' := (listLt_string x y).mp hlt
          rcases List.mem_cons.mp hz with rfl | hz'
          · exact hxy'
          · exact lt_trans hxy' (hy z hz')
        · have hyx : y.asString < x.asString := by
            rcases lt_trichotomy x.asString y.asString with h | h | h
            · exact absurd ((listLt_string x y).mpr h) hlt
            · exact absurd (asString_inj h) hxy
            · exact h
          simp only [insertSorted, if_neg hxy, if_neg hlt]
          refine List.pairwise_cons.mpr ⟨?_, ih hys⟩
          intro z hz
          rcases insertSorted_mem hz with rfl | hz'
          · exact hyx
          · exact hy z hz'

theorem sortUnique_pairwise (l : List (List Char)) :
    List.Pairwise (fun a b => a.asString < b.asString) (sortUnique l) := by
  induction l with
  | nil => simp [sortUnique]
  | cons x xs ih => exact insertSorted_pairwise ih

theorem sortUnique_subset {z : List Char} : ∀ {l : List (List Char)},
    z ∈ sortUnique l → z ∈ l := by
  intro l
  induction l with
  | nil => simp [sortUnique]
  | cons x xs ih =>
      intro hz
      rcases insertSorted_mem hz with rfl | hz'
      · simp
      · simp [ih hz']

theorem buildWords_mem_ne_nil {delim : Tok} {w : List Char} :
    ∀ {toks : List (Tok × List Char)} {word : List (List Char)},
      w ∈ buildWords delim toks word → w ≠ [] := by
  intro toks
  induction toks with
  | nil =>
      intro word hw
      by_cases h : build_tag word ≠ []
      · simp only [buildWords, if_pos h, List.mem_singleton] at hw
        subst hw; exact h
      · simp [buildWords, if_neg h] at hw
  | cons t rest ih =>
      intro word hw
      obtain ⟨tk, content⟩ := t
      by_cases hd : tk = delim
      · by_cases h : build_tag word ≠ []
        · simp only [buildWords, if_pos hd, if_pos h, List.mem_cons] at hw
          rcases hw with rfl | hw'
          · exact h
          · exact ih hw'
        · simp only [buildWords, if_pos hd, if_neg h] at hw
          exact ih hw
      · simp only [buildWords, if_neg hd] at hw
        exact ih hw

theorem asString_ne_empty {l : List Char} (h : l ≠ []) : l.asString ≠ "" := by
  intro hcontra
  apply h
  have : l.asString.data = ("" : String).data := by rw [hcontra]
  simpa using this

/-- Whenever `parse_tag_input` returns at all, every tag string it
emits is non-empty: both paths filter out the words whose canonical
form is empty. -/
theorem parse_mem_ne_empty (input : Option String) (l : List String)
    (h : parse_tag_input input = some l) : ∀ w ∈ l, w ≠ "" := by
  intro w hw
  match input with
  | none =>
      simp only [parse_tag_input, Option.some.injEq] at h
      subst h
      simp at hw
  | some s =>
      unfold parse_tag_input at h
      dsimp only at h
      split at h
      · cases h
        simp at hw
      · split at h
        · unfold tokenPath at h
          rcases Option.map_eq_some'.mp h with ⟨toks, htoks, rfl⟩
          dsimp only at hw
          rcases List.mem_map.mp hw with ⟨p, hp, rfl⟩
          have hmem := sortUnique_subset hp
          exact asString_ne_empty (buildWords_mem_ne_nil hmem)
        · cases h
          unfold fastPath at hw
          rcases List.mem_map.mp hw with ⟨p, hp, rfl⟩
          have hmem := sortUnique_subset hp
          apply asString_ne_empty
          unfold split_strip at hmem
          split at hmem
          · simp at hmem
          · have := (List.mem_filter.mp hmem).2
            simpa using this

/-! ## Helper lemmas: normalization -/

theorem removeQuotes_removeQuotes (s : List Char) :
    removeQuotes (removeQuotes s) = removeQuotes s := by
  simp [removeQuotes, List.filter_filter]

theorem notMem_removeQuotes (s : List Char) : '"' ∉ removeQuotes s := by
  simp [removeQuotes]

theorem removeQuotes_eq_self {s : List Char} (h : '"' ∉ s) :
    removeQuotes s = s := by
  apply List.filter_eq_self.mpr
  intro a ha
  simp only [ne_eq, decide_eq_true_eq]
  exact fun hEq => h (hEq ▸ ha)

theorem removeQuotes_wrap (t : List Char) :
    removeQuotes ('"' :: t ++ ['"']) = removeQuotes t := by
  simp [removeQuotes, List.filter_append]

/-- C10: `normalize_tag_part` is idempotent — stripping all double quotes
and then quote-wrapping when `:` or `=` is present yields a fixed point
after one application. -/
theorem normalize_tag_part_idem (s : List Char) :
    normalize_tag_part (normalize_tag_part s) = normalize_tag_part s := by
  have hq : removeQuotes (removeQuotes s) = removeQuotes s := removeQuotes_removeQuotes s
  by_cases h0 : removeQuotes s = []
  · have e1 : normalize_tag_part s = [] := by
      unfold normalize_tag_part
      rw [if_pos h0]
    rw [e1]
    unfold normalize_tag_part
    simp [removeQuotes]
  · by_cases h1 : (removeQuotes s).contains ':' || (removeQuotes s).contains '='
    · have e1 : normalize_tag_part s = '"' :: removeQuotes s ++ ['"'] := by
        unfold normalize_tag_part
        rw [if_neg h0, if_pos h1]
      rw [e1]
      unfold normalize_tag_part
      rw [removeQuotes_wrap, hq, if_neg h0, if_pos h1]
    · have e1 : normalize_tag_part s = removeQuotes s := by
        unfold normalize_tag_part
        rw [if_neg h0, if_neg h1]
      rw [e1]
      unfold normalize_tag_part
      rw [hq, if_neg h0, if_neg h1]

/-! ## Helper lemmas: serializer -/

theorem renderField_snd (f : List Char) :
    (renderField f).2 = (f.contains ',' || f.contains ':' || f.contains '=') := by
  unfold renderField
  split <;> simp_all

theorem renderField_fst (f : List Char) :
    (renderField f).1 =
      if f.contains ',' || f.contains ':' || f.contains '=' then '"' :: f ++ ['"']
      else f := by
  unfold renderField
  split <;> simp_all

theorem wrap_eq_nil (f : List Char) :
    ((if f.contains ',' || f.contains ':' || f.contains '=' then '"' :: f ++ ['"']
      else f) = []) ↔ f = [] := by
  split
  · rename_i h
    simp only [List.cons_append, reduceCtorEq, false_iff]
    rintro rfl
    simp at h
  · exact Iff.rfl

theorem estStep_eq (acc : List (List Char) × Bool) (t : TagRec) :
    estStep acc t = (acc.1 ++ [renderTagSpec t], acc.2 || hasUnquotedSpacePart t) := by
  obtain ⟨ns, nm, vl⟩ := t
  unfold estStep renderTagSpec hasUnquotedSpacePart
  dsimp only
  simp only [Prod.mk.injEq]
  constructor
  · simp only [renderField_fst, ne_eq, wrap_eq_nil]
  · simp only [renderField_snd, List.any_cons, List.any_nil, Option.getD,
      Bool.or_false, Bool.or_assoc]

theorem est_foldl (tags : List TagRec) (acc : List (List Char) × Bool) :
    tags.foldl estStep acc =
      (acc.1 ++ tags.map renderTagSpec, acc.2 || tags.any hasUnquotedSpacePart) := by
  induction tags generalizing acc with
  | nil => simp
  | cons t ts ih =>
      rw [List.foldl_cons, estStep_eq, ih]
      simp [Bool.or_assoc]

/-! ## Helper lemmas: the `RE_TAG_PARTS` matcher -/

theorem takeRun_fst_all (p : Char → Bool) :
    ∀ (l : List Char), ∀ c ∈ (takeRun p l).1, p c = true := by
  intro l
  induction l with
  | nil => simp [takeRun]
  | cons c cs ih =>
      intro d hd
      by_cases h : p c
      · simp only [takeRun, if_pos h, List.mem_cons] at hd
        rcases hd with rfl | hd'
        · exact h
        · exact ih d hd'
      · simp [takeRun, if_neg h] at hd

theorem takeRun_exact (p : Char → Bool) (l1 l2 : List Char)
    (h1 : ∀ c ∈ l1, p c = true)
    (h2 : l2 = [] ∨ ∃ d t, l2 = d :: t ∧ p d = false) :
    takeRun p (l1 ++ l2) = (l1, l2) := by
  induction l1 with
  | nil =>
      rcases h2 with rfl | ⟨d, t, rfl, hd⟩
      · rfl
      · simp [takeRun, hd]
  | cons c cs ih =>
      have hc : p c = true := h1 c (by simp)
      have ih' := ih (fun d hd => h1 d (by simp [hd]))
      simp [takeRun, hc, ih']

theorem matchQuoted_exact (inner rest : List Char) (hne : inner ≠ [])
    (hq : '"' ∉ inner) :
    matchQuoted ('"' :: (inner ++ '"' :: rest)) = some ('"' :: inner ++ ['"'], rest) := by
  have hrun : takeRun (fun d => d ≠ '"') (inner ++ '"' :: rest) = (inner, '"' :: rest) := by
    apply takeRun_exact
    · intro c hc
      simp only [ne_eq, decide_eq_true_eq]
      exact fun h => hq (h ▸ hc)
    · right
      exact ⟨'"', rest, rfl, by simp⟩
  match inner, hne with
  | i :: is, _ =>
      simp only [matchQuoted, hrun]

theorem matchQuoted_none {cs : List Char} (h : cs.head? ≠ some '"') :
    matchQuoted cs = none := by
  match cs with
  | [] => rfl
  | c :: rest =>
      simp only [List.head?_cons, ne_eq, Option.some.injEq] at h
      unfold matchQuoted
      split
      · rename_i heq
        cases heq
        simp at h
      · rfl

theorem matchPart_quoted (bad : Char → Bool) (inner rest : List Char)
    (hne : inner ≠ []) (hq : '"' ∉ inner) :
    matchPart bad ('"' :: inner ++ '"' :: rest) = some ('"' :: inner ++ ['"'], rest) := by
  unfold matchPart
  rw [show ('"' :: inner ++ '"' :: rest) = '"' :: (inner ++ '"' :: rest) by simp,
    matchQuoted_exact inner rest hne hq]

theorem matchPart_run (bad : Char → Bool) (l1 l2 : List Char)
    (hne : l1 ≠ []) (hgood : ∀ c ∈ l1, bad c = false) (hq : bad '"' = true)
    (h2 : l2 = [] ∨ ∃ d t, l2 = d :: t ∧ bad d = true) :
    matchPart bad (l1 ++ l2) = some (l1, l2) := by
  have hquote : matchQuoted (l1 ++ l2) = none := by
    apply matchQuoted_none
    match l1, hne with
    | c :: cs, _ =>
        simp only [List.cons_append, List.head?_cons, ne_eq, Option.some.injEq]
        intro hcq
        have := hgood c (by simp)
        rw [hcq] at this
        rw [this] at hq
        exact Bool.false_ne_true hq
  have hrun : takeRun (fun c => !bad c) (l1 ++ l2) = (l1, l2) := by
    apply takeRun_exact
    · intro c hc
      simp [hgood c hc]
    · rcases h2 with rfl | ⟨d, t, rfl, hd⟩
      · left; rfl
      · right; exact ⟨d, t, rfl, by simp [hd]⟩
  unfold matchPart
  rw [hquote, hrun]
  simp [hne]

/-- From the boolean `isQuotedLit` recover the structural shape. -/
theorem isQuotedLit_shape {p : List Char} (h : isQuotedLit p = true) :
    ∃ inner, p = '"' :: inner ++ '"' :: [] ∧ inner ≠ [] ∧ '"' ∉ inner := by
  match p with
  | [] => simp [isQuotedLit] at h
  | c :: rest =>
      unfold isQuotedLit at h
      split at h
      · rename_i heq
        cases heq
        simp only [Bool.and_eq_true, decide_eq_true_eq] at h
        obtain ⟨hne, hsnd⟩ := h
        refine ⟨(takeRun (fun d => d ≠ '"') rest).1, ?_, hne, ?_⟩
        · have happ := takeRun_append (fun d => d ≠ '"') rest
          rw [hsnd] at happ
          conv_lhs => rw [← happ]
          simp
        · intro hmem
          have := takeRun_fst_all (fun d => d ≠ '"') rest _ hmem
          simp at this
      · simp at h

/-- A whole grammar piece followed by an excluded character (or nothing)
is matched exactly by the corresponding part group. -/
theorem isPiece_matchPart (bad : Char → Bool) (p rest : List Char)
    (hq : bad '"' = true) (hp : isPiece bad p = true)
    (hrest : rest = [] ∨ ∃ d t, rest = d :: t ∧ bad d = true) :
    matchPart bad (p ++ rest) = some (p, rest) := by
  unfold isPiece at hp
  rcases Bool.or_eq_true_iff.mp hp with hquoted | hrun
  · obtain ⟨inner, rfl, hne, hqin⟩ := isQuotedLit_shape hquoted
    have hthis := matchPart_quoted bad inner rest hne hqin
    rw [show ('"' :: inner ++ '"' :: []) ++ rest = '"' :: inner ++ '"' :: rest by simp,
      hthis]
  · simp only [Bool.and_eq_true, decide_eq_true_eq, List.all_eq_true,
      Bool.not_eq_true'] at hrun
    exact matchPart_run bad p rest hrun.1 hrun.2 hq hrest

theorem nameValue_matchPart {cs : List Char} (h : matchesNameValue cs = true) :
    (matchPart nameBad cs).isSome := by
  unfold matchesNameValue at h
  rcases Bool.or_eq_true_iff.mp h with hpiece | hsplit
  · have := isPiece_matchPart nameBad cs [] (by simp [nameBad]) hpiece (Or.inl rfl)
    rw [List.append_nil] at this
    rw [this]
    rfl
  · rcases List.any_eq_true.mp hsplit with ⟨i, _, hcond⟩
    simp only [Bool.and_eq_true, decide_eq_true_eq] at hcond
    obtain ⟨⟨hpiece, hhead⟩, hval⟩ := hcond
    have hdec : cs = cs.take i ++ '=' :: cs.drop (i + 1) := by
      have h1 : cs.take i ++ cs.drop i = cs := List.take_append_drop i cs
      have h2 : cs.drop i = '=' :: cs.drop (i + 1) := by
        match hd : cs.drop i with
        | [] => rw [hd] at hhead; simp at hhead
        | d :: t =>
            rw [hd] at hhead
            simp only [List.head?_cons, Option.some.injEq] at hhead
            subst hhead
            congr
            have htd := List.tail_drop cs i
            rw [hd] at htd
            simpa using htd
      conv_lhs => rw [← h1, h2]
    have hmp := isPiece_matchPart nameBad (cs.take i) ('=' :: cs.drop (i + 1))
      (by simp [nameBad]) hpiece (Or.inr ⟨'=', _, rfl, by simp [nameBad]⟩)
    rw [← hdec] at hmp
    rw [hmp]
    rfl

/-- Completeness of the prefix matcher for the full grammar: every string
the grammar generates is matched. -/
theorem matchesGrammar_isSome {cs : List Char} (h : matchesGrammar cs = true) :
    (reTagPartsMatch cs).isSome := by
  unfold matchesGrammar at h
  rcases Bool.or_eq_true_iff.mp h with hnv | hsplit
  · unfold reTagPartsMatch
    match hns : nsAttempt cs with
    | some r => rfl
    | none =>
        match hmp : matchPart nameBad cs with
        | some (ncap, rest2) => rfl
        | none =>
            have := nameValue_matchPart hnv
            rw [hmp] at this
            simp at this
  · rcases List.any_eq_true.mp hsplit with ⟨i, _, hcond⟩
    simp only [Bool.and_eq_true, decide_eq_true_eq] at hcond
    obtain ⟨⟨hpiece, hhead⟩, hnv⟩ := hcond
    have hdec : cs = cs.take i ++ ':' :: cs.drop (i + 1) := by
      have h1 : cs.take i ++ cs.drop i = cs := List.take_append_drop i cs
      have h2 : cs.drop i = ':' :: cs.drop (i + 1) := by
        match hd : cs.drop i with
        | [] => rw [hd] at hhead; simp at hhead
        | d :: t =>
            rw [hd] at hhead
            simp only [List.head?_cons, Option.some.injEq] at hhead
            subst hhead
            congr
            have htd := List.tail_drop cs i
            rw [hd] at htd
            simpa using htd
      conv_lhs => rw [← h1, h2]
    have hns : (nsAttempt cs).isSome := by
      unfold nsAttempt
      have hmp := isPiece_matchPart nsBad (cs.take i) (':' :: cs.drop (i + 1))
        (by simp [nsBad]) hpiece (Or.inr ⟨':', _, rfl, by simp [nsBad]⟩)
      rw [← hdec] at hmp
      rw [hmp]
      have := nameValue_matchPart hnv
      match hmp2 : matchPart nameBad (cs.drop (i + 1)) with
      | some (ncap, rest2) => simp [hmp2]
      | none =>
          rw [hmp2] at this
          simp at this
    unfold reTagPartsMatch
    match hns2 : nsAttempt cs with
    | some r => rfl
    | none =>
        rw [hns2] at hns
        simp at hns

/-- Whenever `parse_tag_input` returns at all, its deduplicated output
is sorted. -/
theorem parse_pairwise_lt (input : Option String) (l : List String)
    (h : parse_tag_input input = some l) : List.Pairwise (· < ·) l := by
  match input with
  | none =>
      simp only [parse_tag_input, Option.some.injEq] at h
      subst h
      simp
  | some s =>
      unfold parse_tag_input at h
      dsimp only at h
      split at h
      · cases h
        simp
      · split at h
        · unfold tokenPath at h
          rcases Option.map_eq_some'.mp h with ⟨toks, htoks, rfl⟩
          exact (sortUnique_pairwise _).map _ (fun a b hab => hab)
        · cases h
          unfold fastPath
          exact (sortUnique_pairwise _).map _ (fun a b hab => hab)

/-! ## Round-tripping a rendered triple -/


theorem normalize_no_quote {p : List Char} (h : '"' ∉ p) :
    normalize_tag_part p =
      if p = [] then []
      else if p.contains ':' || p.contains '=' then '"' :: p ++ ['"']
      else p := by
  unfold normalize_tag_part
  rw [removeQuotes_eq_self h]

theorem normalize_nil : normalize_tag_part [] = [] := by
  simp [normalize_tag_part, removeQuotes]

theorem normalize_ne_nil {p : List Char} (hq : '"' ∉ p) (hne : p ≠ []) :
    normalize_tag_part p ≠ [] := by
  rw [normalize_no_quote hq, if_neg hne]
  split <;> simp [hne]

/-- A normalized quote-free non-empty part, followed by nothing or by an
excluded character, is matched exactly by any of the three part groups. -/
theorem matchPart_norm (bad : Char → Bool) (p rest : List Char)
    (hqp : '"' ∉ p) (hne : p ≠ [])
    (hq : bad '"' = true)
    (hsub : ∀ c, bad c = true → c = ':' ∨ c = '=' ∨ c = '"')
    (hrest : rest = [] ∨ ∃ d t, rest = d :: t ∧ bad d = true) :
    matchPart bad (normalize_tag_part p ++ rest) = some (normalize_tag_part p, rest) := by
  rw [normalize_no_quote hqp, if_neg hne]
  by_cases hw : (p.contains ':' || p.contains '=') = true
  · rw [if_pos hw]
    rw [show ('"' :: p ++ ['"']) ++ rest = '"' :: p ++ '"' :: rest by simp]
    exact matchPart_quoted bad p rest hne hqp
  · rw [if_neg hw]
    apply matchPart_run bad p rest hne _ hq hrest
    intro c hc
    cases hbc : bad c with
    | false => rfl
    | true =>
        exfalso
        simp only [Bool.or_eq_true, List.elem_eq_mem, decide_eq_true_eq] at hw
        rcases hsub c hbc with rfl | rfl | rfl
        · exact hw (Or.inl hc)
        · exact hw (Or.inr hc)
        · exact hqp hc

theorem strip_norm {p : List Char} (hqp : '"' ∉ p) (hne : p ≠ []) :
    stripOuterQuotes (normalize_tag_part p) = p := by
  rw [normalize_no_quote hqp, if_neg hne]
  by_cases hw : (p.contains ':' || p.contains '=') = true
  · rw [if_pos hw]
    unfold stripOuterQuotes
    rw [if_pos]
    · rw [show ('"' :: p ++ ['"']) = '"' :: (p ++ ['"']) by simp]
      simp [List.dropLast_concat]
    · constructor
      · simp
      · rw [show ('"' :: p ++ ['"']) = ('"' :: p) ++ ['"'] by simp]
        exact List.getLast?_concat _
  · rw [if_neg hw]
    unfold stripOuterQuotes
    rw [if_neg]
    intro hcond
    match p, hne with
    | c :: cs, _ =>
        have hc : c ≠ '"' := fun h => hqp (by simp [h])
        simp only [List.head?_cons, Option.some.injEq] at hcond
        exact hc hcond.1

theorem matchValueOpt_nil : matchValueOpt [] = none := rfl

theorem matchValueOpt_eq (vl : List Char) (hq : '"' ∉ vl) (hne : vl ≠ []) :
    matchValueOpt ('=' :: normalize_tag_part vl) = some (normalize_tag_part vl) := by
  have hmp := matchPart_norm valueBad vl [] hq hne (by simp [valueBad])
    (fun c hc => by simp only [valueBad, decide_eq_true_eq] at hc; exact Or.inr (Or.inr hc))
    (Or.inl rfl)
  rw [List.append_nil] at hmp
  simp [matchValueOpt, hmp]

/-- Hypothesis packages for the three part groups. -/
theorem nsBad_sub : ∀ c, nsBad c = true → c = ':' ∨ c = '=' ∨ c = '"' := by
  intro c hc
  simp only [nsBad, Bool.or_eq_true, decide_eq_true_eq] at hc
  tauto

theorem nameBad_sub : ∀ c, nameBad c = true → c = ':' ∨ c = '=' ∨ c = '"' := by
  intro c hc
  simp only [nameBad, Bool.or_eq_true, decide_eq_true_eq] at hc
  tauto

/-- C9: round-trip on the triple — for every `(namespace, name, value)`
whose parts are free of double-quote characters and whose name is
non-empty, `get_tag_parts` applied to the canonical rendering of the
triple (each part normalized, hence quote-wrapped when it contains `:`
or `=`, joined as `namespace:name=value` with absent parts omitted)
returns exactly that triple. -/
theorem get_tag_parts_renderTriple (ns nm vl : List Char)
    (hq1 : '"' ∉ ns) (hq2 : '"' ∉ nm) (hq3 : '"' ∉ vl) (hne : nm ≠ []) :
    get_tag_parts (renderTriple ns nm vl) =
      some ⟨if ns = [] then none else some ns, nm,
        if vl = [] then none else some vl⟩ := by
  have hnm := normalize_ne_nil hq2 hne
  by_cases hns : ns = [] <;> by_cases hvl : vl = []
  · -- no namespace, no value: the rendering is just the name part
    subst hns; subst hvl
    have hrt : renderTriple [] nm [] = normalize_tag_part nm := by
      unfold renderTriple
      simp [normalize_nil]
    have hname : matchPart nameBad (normalize_tag_part nm) = some (normalize_tag_part nm, []) := by
      have := matchPart_norm nameBad nm [] hq2 hne (by simp [nameBad]) nameBad_sub (Or.inl rfl)
      rwa [List.append_nil] at this
    have hnsa : nsAttempt (normalize_tag_part nm) = none := by
      unfold nsAttempt
      have := matchPart_norm nsBad nm [] hq2 hne (by simp [nsBad]) nsBad_sub (Or.inl rfl)
      rw [List.append_nil] at this
      rw [this]
    unfold get_tag_parts reTagPartsMatch
    rw [hrt, hnsa, hname]
    simp [matchValueOpt_nil, strip_norm hq2 hne]
  · -- no namespace, value present
    subst hns
    have hnv := normalize_ne_nil hq3 hvl
    have hrt : renderTriple [] nm vl =
        normalize_tag_part nm ++ '=' :: normalize_tag_part vl := by
      unfold renderTriple
      simp [normalize_nil, hnv]
    have hrest : ('=' :: normalize_tag_part vl) = [] ∨
        ∃ d t, ('=' :: normalize_tag_part vl) = d :: t ∧ nameBad d = true :=
      Or.inr ⟨'=', _, rfl, by simp [nameBad]⟩
    have hname := matchPart_norm nameBad nm ('=' :: normalize_tag_part vl)
      hq2 hne (by simp [nameBad]) nameBad_sub hrest
    have hnsa : nsAttempt (normalize_tag_part nm ++ '=' :: normalize_tag_part vl) = none := by
      unfold nsAttempt
      rw [matchPart_norm nsBad nm ('=' :: normalize_tag_part vl) hq2 hne
        (by simp [nsBad]) nsBad_sub (Or.inr ⟨'=', _, rfl, by simp [nsBad]⟩)]
      simp
    unfold get_tag_parts reTagPartsMatch
    rw [hrt, hnsa, hname]
    simp [matchValueOpt_eq vl hq3 hvl, strip_norm hq2 hne, strip_norm hq3 hvl, hvl]
  · -- namespace present, no value
    subst hvl
    have hnn := normalize_ne_nil hq1 hns
    have hrt : renderTriple ns nm [] =
        normalize_tag_part ns ++ ':' :: normalize_tag_part nm := by
      unfold renderTriple
      simp [normalize_nil, hnn]
    have hname : matchPart nameBad (normalize_tag_part nm) = some (normalize_tag_part nm, []) := by
      have := matchPart_norm nameBad nm [] hq2 hne (by simp [nameBad]) nameBad_sub (Or.inl rfl)
      rwa [List.append_nil] at this
    have hnsp := matchPart_norm nsBad ns (':' :: normalize_tag_part nm) hq1 hns
      (by simp [nsBad]) nsBad_sub (Or.inr ⟨':', _, rfl, by simp [nsBad]⟩)
    have hnsa : nsAttempt (normalize_tag_part ns ++ ':' :: normalize_tag_part nm) =
        some ⟨some (normalize_tag_part ns), normalize_tag_part nm, none⟩ := by
      unfold nsAttempt
      rw [hnsp]
      simp [hname, matchValueOpt_nil]
    unfold get_tag_parts reTagPartsMatch
    rw [hrt, hnsa]
    simp [strip_norm hq1 hns, strip_norm hq2 hne, hns]
  · -- namespace and value both present
    have hnn := normalize_ne_nil hq1 hns
    have hnv := normalize_ne_nil hq3 hvl
    have hrt : renderTriple ns nm vl =
        normalize_tag_part ns ++ ':' ::
          (normalize_tag_part nm ++ '=' :: normalize_tag_part vl) := by
      unfold renderTriple
      rw [if_pos hnv, if_pos hnn]
      simp
    have hname := matchPart_norm nameBad nm ('=' :: normalize_tag_part vl)
      hq2 hne (by simp [nameBad]) nameBad_sub (Or.inr ⟨'=', _, rfl, by simp [nameBad]⟩)
    have hnsp := matchPart_norm nsBad ns
      (':' :: (normalize_tag_part nm ++ '=' :: normalize_tag_part vl)) hq1 hns
      (by simp [nsBad]) nsBad_sub (Or.inr ⟨':', _, rfl, by simp [nsBad]⟩)
    have hnsa : nsAttempt (renderTriple ns nm vl) =
        some ⟨some (normalize_tag_part ns), normalize_tag_part nm,
          matchValueOpt ('=' :: normalize_tag_part vl)⟩ := by
      unfold nsAttempt
      rw [hrt, hnsp]
      simp [hname]
    unfold get_tag_parts reTagPartsMatch
    rw [hnsa]
    simp [matchValueOpt_eq vl hq3 hvl, strip_norm hq1 hns, strip_norm hq2 hne,
      strip_norm hq3 hvl, hns, hvl]


/-! ## Build-tag: behaviour of a non-separating `=` (C6) -/


/-- Scanning separator-free tokens only accumulates them into `left`. -/
theorem foldl_btStep_no_sep (ts : List (List Char)) :
    ∀ st : BTState, st.lms = none → [':'] ∉ ts → ['='] ∉ ts →
      ts.foldl btStep st = { st with left := st.left ++ ts } := by
  induction ts with
  | nil => intro st _ _ _; simp
  | cons t ts ih =>
      intro st hlms h1 h2
      have ht1 : ¬ t = [':'] := fun h => h1 (by simp [h])
      have ht2 : ¬ t = ['='] := fun h => h2 (by simp [h])
      have hstep : btStep st t = { st with left := st.left ++ [t] } := by
        unfold btStep
        rw [hlms]
        simp [ht1, ht2]
      rw [List.foldl_cons, hstep,
        ih { st with left := st.left ++ [t] } hlms
          (fun h => h1 (by simp [h])) (fun h => h2 (by simp [h]))]
      simp

/-- A leading `=` with an empty `left` buffer is discarded: the built tag
is the same as if the token were absent. -/
theorem build_tag_eq_drop_left (ts : List (List Char)) :
    build_tag (['='] :: ts) = build_tag ts := by
  have hstep : btStep ⟨[], none, [], none, []⟩ ['='] = ⟨[], none, [], none, []⟩ := by decide
  by_cases h1 : [':'] ∈ ts
  · unfold build_tag
    rw [if_neg (by simp), if_neg (by simp [h1]), List.foldl_cons, hstep]
  · by_cases h2 : ['='] ∈ ts
    · unfold build_tag
      rw [if_neg (by simp), if_neg (by simp [h2]), List.foldl_cons, hstep]
    · unfold build_tag
      rw [if_neg (by simp), if_pos (by simp [h1, h2]), List.foldl_cons, hstep,
        foldl_btStep_no_sep ts _ rfl h1 h2]
      simp [buildTagFinish, normalize_nil]

/-- After `namespace:`, a `=` with an empty `middle` buffer is likewise
discarded. -/
theorem build_tag_eq_drop_middle (ns ts : List (List Char))
    (h1 : [':'] ∉ ns) (h2 : ['='] ∉ ns) :
    build_tag (ns ++ [':'] :: ['='] :: ts) = build_tag (ns ++ [':'] :: ts) := by
  have hdrop : ∀ L : List (List Char),
      btStep (btStep ⟨L, none, [], none, []⟩ [':']) ['='] =
        btStep ⟨L, none, [], none, []⟩ [':'] := by
    intro L
    simp [btStep]
  have hst : List.foldl btStep ⟨[], none, [], none, []⟩ ns =
      (⟨ns, none, [], none, []⟩ : BTState) := by
    rw [foldl_btStep_no_sep ns _ rfl h1 h2]
    simp
  unfold build_tag
  rw [if_neg (by simp), if_neg (by simp)]
  rw [List.foldl_append, List.foldl_append, hst, List.foldl_cons,
    List.foldl_cons, List.foldl_cons, hdrop ns]


/-! ## Fast path versus general path (C4)

Claim-side definitions: the non-empty words obtained by splitting on
whitespace, and the lemmas comparing them with both parser paths on
inputs free of `,`, `"`, `:`, `=`. -/


theorem splitOnPred_ne_nil (p : Char → Bool) : ∀ cs, splitOnPred p cs ≠ [] := by
  intro cs
  match cs with
  | [] => simp [splitOnPred]
  | c :: cs' =>
      unfold splitOnPred
      split
      · simp
      · split
        · simp
        · simp

theorem pySplit_eq_splitOnPred (sep : Char) : ∀ cs,
    pySplit sep cs = splitOnPred (fun c => c = sep) cs := by
  intro cs
  induction cs with
  | nil => rfl
  | cons c cs' ih =>
      unfold pySplit splitOnPred
      rw [ih]
      by_cases h : c = sep
      · simp [h]
      · simp [h]

theorem splitOnPred_congr (p q : Char → Bool) : ∀ cs,
    (∀ c ∈ cs, p c = q c) → splitOnPred p cs = splitOnPred q cs := by
  intro cs
  induction cs with
  | nil => intro _; rfl
  | cons c cs' ih =>
      intro hpq
      have hc : p c = q c := hpq c (by simp)
      have ih' := ih (fun d hd => hpq d (by simp [hd]))
      unfold splitOnPred
      rw [hc, ih']

theorem splitOnPred_pieces (p : Char → Bool) : ∀ cs,
    ∀ piece ∈ splitOnPred p cs, ∀ c ∈ piece, p c = false := by
  intro cs
  induction cs with
  | nil =>
      intro piece hp c hc
      simp [splitOnPred] at hp
      subst hp
      simp at hc
  | cons a cs' ih =>
      intro piece hp c hc
      unfold splitOnPred at hp
      by_cases ha : p a
      · rw [if_pos ha] at hp
        rcases List.mem_cons.mp hp with rfl | hp'
        · simp at hc
        · exact ih piece hp' c hc
      · rw [if_neg ha] at hp
        match hsp : splitOnPred p cs' with
        | w :: ws =>
            rw [hsp] at hp
            rcases List.mem_cons.mp hp with rfl | hp'
            · rcases List.mem_cons.mp hc with rfl | hc'
              · simpa using ha
              · exact ih w (by rw [hsp]; simp) c hc'
            · exact ih piece (by rw [hsp]; simp [hp']) c hc
        | [] => exact absurd hsp (splitOnPred_ne_nil p cs')

/-- Every character of a split piece is a character of the input. -/
theorem splitOnPred_subset (p : Char → Bool) : ∀ cs,
    ∀ piece ∈ splitOnPred p cs, ∀ c ∈ piece, c ∈ cs := by
  intro cs
  induction cs with
  | nil =>
      intro piece hp c hc
      simp [splitOnPred] at hp
      subst hp
      simp at hc
  | cons a cs' ih =>
      intro piece hp c hc
      unfold splitOnPred at hp
      by_cases ha : p a
      · rw [if_pos ha] at hp
        rcases List.mem_cons.mp hp with rfl | hp'
        · simp at hc
        · simp [ih piece hp' c hc]
      · rw [if_neg ha] at hp
        match hsp : splitOnPred p cs' with
        | w :: ws =>
            rw [hsp] at hp
            rcases List.mem_cons.mp hp with rfl | hp'
            · rcases List.mem_cons.mp hc with rfl | hc'
              · simp
              · simp [ih w (by rw [hsp]; simp) c hc']
            · simp [ih piece (by rw [hsp]; simp [hp']) c hc]
        | [] => exact absurd hsp (splitOnPred_ne_nil p cs')

theorem pyStrip_id (l : List Char) (h : ∀ c ∈ l, isStripSpace c = false) :
    pyStrip l = l := by
  have hdw : ∀ m : List Char, (∀ c ∈ m, isStripSpace c = false) →
      m.dropWhile isStripSpace = m := by
    intro m hm
    match m with
    | [] => rfl
    | c :: m' =>
        rw [List.dropWhile_cons_of_neg]
        simp [hm c (by simp)]
  unfold pyStrip
  rw [hdw l h, hdw l.reverse (fun c hc => h c (List.mem_reverse.mp hc)),
    List.reverse_reverse]

theorem splitOnPred_cons_pos {p : Char → Bool} {c : Char} (hc : p c = true)
    (cs : List Char) : splitOnPred p (c :: cs) = [] :: splitOnPred p cs := by
  conv_lhs => rw [splitOnPred]
  rw [if_pos hc]

theorem wsWords_ws_cons {c : Char} (hc : isPySpace c = true) (cs : List Char) :
    wsWords (c :: cs) = wsWords cs := by
  unfold wsWords
  rw [splitOnPred_cons_pos hc]
  simp

theorem wsWords_ws_front : ∀ (sp r : List Char),
    (∀ c ∈ sp, isPySpace c = true) → wsWords (sp ++ r) = wsWords r := by
  intro sp
  induction sp with
  | nil => simp
  | cons c sp' ih =>
      intro r hsp
      rw [List.cons_append, wsWords_ws_cons (hsp c (by simp)),
        ih r (fun d hd => hsp d (by simp [hd]))]

theorem splitOnPred_word (p : Char → Bool) : ∀ (w rest : List Char),
    (∀ c ∈ w, p c = false) →
    ∃ h t, splitOnPred p rest = h :: t ∧ splitOnPred p (w ++ rest) = (w ++ h) :: t := by
  intro w
  induction w with
  | nil =>
      intro rest _
      match hsp : splitOnPred p rest with
      | h :: t => exact ⟨h, t, rfl, by simp [hsp]⟩
      | [] => exact absurd hsp (splitOnPred_ne_nil p rest)
  | cons c w' ih =>
      intro rest hw
      rcases ih rest (fun d hd => hw d (by simp [hd])) with ⟨h, t, hsp, happ⟩
      refine ⟨h, t, hsp, ?_⟩
      have hstep : splitOnPred p (c :: (w' ++ rest)) =
          match splitOnPred p (w' ++ rest) with
          | w :: ws => (c :: w) :: ws
          | [] => [[c]] := by
        conv_lhs => rw [splitOnPred]
        rw [if_neg (by simp [hw c (by simp)])]
      rw [List.cons_append, hstep, happ]
      simp

/-- A non-empty whitespace-free word followed by whitespace (or the end)
is the first whitespace-word of the concatenation. -/
theorem wsWords_word (w rest : List Char) (hne : w ≠ [])
    (hw : ∀ c ∈ w, isPySpace c = false)
    (hrest : rest = [] ∨ ∃ d t, rest = d :: t ∧ isPySpace d = true) :
    wsWords (w ++ rest) = w :: wsWords rest := by
  rcases splitOnPred_word isPySpace w rest hw with ⟨h, t, hsp, happ⟩
  have hh : h = [] := by
    rcases hrest with rfl | ⟨d, r', rfl, hd⟩
    · have : splitOnPred isPySpace ([] : List Char) = [[]] := rfl
      rw [this] at hsp
      injection hsp with h1 h2
      exact h1.symm
    · rw [splitOnPred_cons_pos hd] at hsp
      injection hsp with h1 h2
      exact h1.symm
  subst hh
  unfold wsWords
  rw [happ, hsp]
  simp [hne]


theorem isPartChar_props {c : Char} (h : isPartChar c = true) :
    ¬ c = ',' ∧ isPySpace c = false ∧ ¬ c = ':' ∧ ¬ c = '=' ∧ ¬ c = '"' := by
  have h' := h
  simp only [isPartChar, Bool.not_eq_true', Bool.or_eq_false_iff,
    decide_eq_false_iff_not] at h'
  tauto

theorem build_tag_nil : build_tag [] = [] := by decide

theorem nextToken_space (cs : List Char) :
    nextToken ' ' cs =
      ((.space, ' ' :: (takeRun isPySpace cs).1), (takeRun isPySpace cs).2) := by
  simp [nextToken, isPySpace]

theorem nextToken_part {c : Char} (h : isPartChar c = true) (cs : List Char) :
    nextToken c cs =
      ((.part, c :: (takeRun isPartChar cs).1), (takeRun isPartChar cs).2) := by
  obtain ⟨h1, h2, h3, h4, h5⟩ := isPartChar_props h
  simp [nextToken, h1, h2, h3, h4, h5]

theorem buildWords_space_skip (toks : List (Tok × List Char)) (content : List Char) :
    buildWords .space ((Tok.space, content) :: toks) [] = buildWords .space toks [] := by
  simp [buildWords, build_tag_nil]

theorem buildWords_space_flush (toks : List (Tok × List Char)) (content w : List Char)
    (hw : build_tag [w] ≠ []) :
    buildWords .space ((Tok.space, content) :: toks) [w] =
      build_tag [w] :: buildWords .space toks [] := by
  simp [buildWords, hw]

theorem buildWords_part_acc (toks : List (Tok × List Char)) (content : List Char)
    (word : List (List Char)) :
    buildWords .space ((Tok.part, content) :: toks) word =
      buildWords .space toks (word ++ [content]) := by
  simp [buildWords]

theorem build_tag_single (w : List Char) (hw : ∀ c ∈ w, isPartChar c = true)
    (hne : w ≠ []) : build_tag [w] = w := by
  have hq : '"' ∉ w := fun hm => (isPartChar_props (hw _ hm)).2.2.2.2 rfl
  have hcolon : ':' ∉ w := fun hm => (isPartChar_props (hw _ hm)).2.2.1 rfl
  have heqs : '=' ∉ w := fun hm => (isPartChar_props (hw _ hm)).2.2.2.1 rfl
  have hwne1 : w ≠ [':'] := by rintro rfl; exact hcolon (by simp)
  have hwne2 : w ≠ ['='] := by rintro rfl; exact heqs (by simp)
  have hcond : ¬ ([w] : List (List Char)).contains [':'] ∧
      ¬ ([w] : List (List Char)).contains ['='] := by
    constructor <;> simp [List.elem_eq_mem] <;> [exact fun h => hwne1 h.symm;
      exact fun h => hwne2 h.symm]
  unfold build_tag
  rw [if_pos hcond]
  have hfl : ([w] : List (List Char)).flatten = w := by simp
  rw [hfl, normalize_no_quote hq, if_neg hne, if_neg]
  simp [List.elem_eq_mem, hcolon, heqs]

theorem split_strip_eq_wsWords (cs : List Char) (h : SimpleInput cs) :
    split_strip ' ' cs = wsWords cs := by
  by_cases hnil : cs = []
  · subst hnil
    simp [split_strip, wsWords, splitOnPred]
  · unfold split_strip
    rw [if_neg hnil, pySplit_eq_splitOnPred,
      splitOnPred_congr (fun c => c = ' ') isPySpace cs ?_]
    · have hid : (splitOnPred isPySpace cs).map pyStrip = splitOnPred isPySpace cs := by
        rw [show (splitOnPred isPySpace cs).map pyStrip =
            (splitOnPred isPySpace cs).map id from
          List.map_congr_left (fun a ha => pyStrip_id a (fun c hca => ?_)), List.map_id]
        have hcs : c ∈ cs := splitOnPred_subset isPySpace cs a ha c hca
        have hws := splitOnPred_pieces isPySpace cs a ha c hca
        rcases h c hcs with ⟨_, hst⟩ | rfl
        · exact hst
        · simp [isPySpace] at hws
      rw [hid]
      rfl
    · intro c hc
      rcases h c hc with ⟨hpc, _⟩ | rfl
      · obtain ⟨_, h2, _, _, _⟩ := isPartChar_props hpc
        have : ¬ c = ' ' := by
          intro hcsp
          subst hcsp
          simp [isPySpace] at h2
        simp [this, h2]
      · simp [isPySpace]


/-- One step of the tokenizing loop, with the tail re-anchored at its own
length. -/
theorem tokenizeAux_cons (c : Char) (cs : List Char) :
    tokenizeAux (c :: cs) = (nextToken c cs).1 :: tokenizeAux (nextToken c cs).2 := by
  unfold tokenizeAux
  show (nextToken c cs).1 :: tokenizeGoAux cs.length (nextToken c cs).2 = _
  rw [tokenizeGoAux_congr cs.length (nextToken c cs).2.length (nextToken c cs).2
    (nextToken_snd_length c cs) le_rfl]

/-- On simple inputs the tokenizing loop produces exactly the whitespace
words and never a comma token. -/
theorem tokenizeAux_simple : ∀ (n : ℕ) (cs : List Char), cs.length ≤ n →
    (∀ c ∈ cs, isPartChar c = true ∨ c = ' ') →
    buildWords .space (tokenizeAux cs) [] = wsWords cs ∧
      (tokenizeAux cs).any (fun t => t.1 = Tok.comma) = false := by
  intro n
  induction n with
  | zero =>
      intro cs hlen _
      have hnil : cs = [] := by
        cases cs with
        | nil => rfl
        | cons c cs' => simp at hlen
      subst hnil
      exact ⟨by decide, by decide⟩
  | succ n ih =>
      intro cs hlen hclass
      match cs with
      | [] => exact ⟨by decide, by decide⟩
      | c :: cs' =>
          simp only [List.length_cons] at hlen
          rcases hclass c (by simp) with hpc | hsp
          · -- the head is an ordinary tag character: a part token is cut
            have hw : ∀ d ∈ c :: (takeRun isPartChar cs').1, isPartChar d = true := by
              intro d hd
              rcases List.mem_cons.mp hd with rfl | hd'
              · exact hpc
              · exact takeRun_fst_all isPartChar cs' d hd'
            have hwnsp : ∀ d ∈ c :: (takeRun isPartChar cs').1, isPySpace d = false :=
              fun d hd => (isPartChar_props (hw d hd)).2.1
            have hbt : build_tag [c :: (takeRun isPartChar cs').1] =
                c :: (takeRun isPartChar cs').1 :=
              build_tag_single _ hw (by simp)
            have hbtne : build_tag [c :: (takeRun isPartChar cs').1] ≠ [] := by
              rw [hbt]; simp
            have hdecomp : cs' = (takeRun isPartChar cs').1 ++ (takeRun isPartChar cs').2 :=
              (takeRun_append isPartChar cs').symm
            have hstep : tokenizeAux (c :: cs') =
                (Tok.part, c :: (takeRun isPartChar cs').1) ::
                  tokenizeAux (takeRun isPartChar cs').2 := by
              rw [tokenizeAux_cons c cs', nextToken_part hpc cs']
            rcases takeRun_snd_shape isPartChar cs' with hr2 | ⟨d, t, hr2, hd⟩
            · -- the part token reaches the end of the input
              have hcs : c :: cs' = (c :: (takeRun isPartChar cs').1) ++ [] := by
                conv_lhs => rw [hdecomp, hr2]
                simp
              constructor
              · rw [hstep, hr2, buildWords_part_acc]
                rw [show tokenizeAux [] = [] from rfl, List.nil_append]
                rw [show buildWords Tok.space [] [c :: (takeRun isPartChar cs').1] =
                    [build_tag [c :: (takeRun isPartChar cs').1]] from by
                  simp [buildWords, hbtne]]
                rw [hbt, hcs, wsWords_word _ [] (by simp) hwnsp (Or.inl rfl)]
                rfl
              · rw [hstep, hr2]
                simp [tokenizeAux, tokenizeGoAux]
            · -- the part token is followed by whitespace, i.e. a space
              have hdmem : d ∈ cs' := by
                rw [hdecomp, hr2]
                simp
              have hdsp : d = ' ' := by
                rcases hclass d (by simp [hdmem]) with hpcd | rfl
                · rw [hpcd] at hd
                  exact absurd hd (by simp)
                · rfl
              subst hdsp
              have hstep2 : tokenizeAux (' ' :: t) =
                  (Tok.space, ' ' :: (takeRun isPySpace t).1) ::
                    tokenizeAux (takeRun isPySpace t).2 := by
                rw [tokenizeAux_cons ' ' t, nextToken_space t]
              have htlen : t.length + 1 ≤ cs'.length := by
                have := takeRun_snd_length isPartChar cs'
                rw [hr2] at this
                simpa using this
              have hlen2 : (takeRun isPySpace t).2.length ≤ n := by
                have := takeRun_snd_length isPySpace t
                omega
              have hclass2 : ∀ e ∈ (takeRun isPySpace t).2,
                  isPartChar e = true ∨ e = ' ' := by
                intro e he
                apply hclass
                have het : e ∈ t := takeRun_snd_mem he
                have hecs : e ∈ cs' := by
                  rw [hdecomp, hr2]
                  simp [het]
                simp [hecs]
              have hih := ih (takeRun isPySpace t).2 hlen2 hclass2
              have hcs : c :: cs' = (c :: (takeRun isPartChar cs').1) ++ ' ' :: t := by
                conv_lhs => rw [hdecomp, hr2]
                simp
              constructor
              · rw [hstep, hr2, buildWords_part_acc, List.nil_append, hstep2,
                  buildWords_space_flush _ _ _ hbtne, hbt, hih.1]
                rw [hcs, wsWords_word _ (' ' :: t) (by simp) hwnsp
                  (Or.inr ⟨' ', t, rfl, by simp [isPySpace]⟩)]
                congr 1
                have hpre := wsWords_ws_front (takeRun isPySpace t).1
                  (takeRun isPySpace t).2 (takeRun_fst_all isPySpace t)
                rw [takeRun_append isPySpace t] at hpre
                rw [wsWords_ws_cons (by simp [isPySpace]) t]
                exact hpre.symm
              · rw [hstep, hr2, hstep2]
                simp only [List.any_cons, hih.2]
                simp
          · -- the head is a space: a space token is cut
            subst hsp
            have hstep : tokenizeAux (' ' :: cs') =
                (Tok.space, ' ' :: (takeRun isPySpace cs').1) ::
                  tokenizeAux (takeRun isPySpace cs').2 := by
              rw [tokenizeAux_cons ' ' cs', nextToken_space cs']
            have hlen2 : (takeRun isPySpace cs').2.length ≤ n := by
              have := takeRun_snd_length isPySpace cs'
              omega
            have hclass2 : ∀ e ∈ (takeRun isPySpace cs').2,
                isPartChar e = true ∨ e = ' ' := by
              intro e he
              exact hclass e (by simp [takeRun_snd_mem he])
            have hih := ih (takeRun isPySpace cs').2 hlen2 hclass2
            have hdec2 : (' ' :: cs') =
                (' ' :: (takeRun isPySpace cs').1) ++ (takeRun isPySpace cs').2 := by
              conv_lhs => rw [show cs' =
                (takeRun isPySpace cs').1 ++ (takeRun isPySpace cs').2 from
                  (takeRun_append isPySpace cs').symm]
              simp
            constructor
            · rw [hstep, buildWords_space_skip, hih.1, hdec2]
              refine (wsWords_ws_front (' ' :: (takeRun isPySpace cs').1)
                (takeRun isPySpace cs').2 ?_).symm
              intro e he
              rcases List.mem_cons.mp he with rfl | he'
              · simp [isPySpace]
              · exact takeRun_fst_all isPySpace cs' e he'
            · rw [hstep]
              simp only [List.any_cons, hih.2]
              simp


/-! # Claim theorems -/

/-- C1 (counterexample): a name of 51 characters exceeds both the name
limit (40) and the total-tag limit (50), yet the error reports dimension
`tag`, not `name` — the total-length check fires first, not last. -/
theorem check_tag_length_counterexample :
    (List.replicate 51 'a').length > 40 ∧
    (List.replicate 51 'a').length > 50 ∧
    check_tag_length ⟨50, 40, 10, 10⟩ none (some (List.replicate 51 'a')) none =
      Except.error ("tag", 50) ∧
    ("tag" : String) ≠ "name" := by
  refine ⟨by decide, by decide, by rfl, by decide⟩

/-- C1 (amended): `check_tag_length` applies its checks in the order
total-tag, name, namespace, value, and reports the first violated limit;
in particular a name exceeding both its own limit and the total limit
reports dimension `tag`. -/
theorem check_tag_length_first_violation :
    ∀ (st : TagSettings) (ns nm vl : Option (List Char)),
      (check_tag_length st ns nm vl = Except.error ("tag", st.MAX_TAG_LENGTH) ↔
        st.MAX_TAG_LENGTH <
          (nm.getD []).length + (ns.getD []).length + (vl.getD []).length) ∧
      (check_tag_length st ns nm vl = Except.error ("name", st.MAX_TAG_NAME_LENGTH) ↔
        ((nm.getD []).length + (ns.getD []).length + (vl.getD []).length ≤
            st.MAX_TAG_LENGTH ∧
          st.MAX_TAG_NAME_LENGTH < (nm.getD []).length)) ∧
      (check_tag_length st ns nm vl =
          Except.error ("namespace", st.MAX_TAG_NAMESPACE_LENGTH) ↔
        ((nm.getD []).length + (ns.getD []).length + (vl.getD []).length ≤
            st.MAX_TAG_LENGTH ∧
          (nm.getD []).length ≤ st.MAX_TAG_NAME_LENGTH ∧
          st.MAX_TAG_NAMESPACE_LENGTH < (ns.getD []).length)) ∧
      (check_tag_length st ns nm vl = Except.error ("value", st.MAX_TAG_VALUE_LENGTH) ↔
        ((nm.getD []).length + (ns.getD []).length + (vl.getD []).length ≤
            st.MAX_TAG_LENGTH ∧
          (nm.getD []).length ≤ st.MAX_TAG_NAME_LENGTH ∧
          (ns.getD []).length ≤ st.MAX_TAG_NAMESPACE_LENGTH ∧
          st.MAX_TAG_VALUE_LENGTH < (vl.getD []).length)) ∧
      (st.MAX_TAG_NAME_LENGTH < (nm.getD []).length →
        st.MAX_TAG_LENGTH <
          (nm.getD []).length + (ns.getD []).length + (vl.getD []).length →
        check_tag_length st ns nm vl = Except.error ("tag", st.MAX_TAG_LENGTH)) := by
  intro st ns nm vl
  have hne1 : ("tag" : String) ≠ "name" := by decide
  have hne2 : ("tag" : String) ≠ "namespace" := by decide
  have hne3 : ("tag" : String) ≠ "value" := by decide
  have hne4 : ("name" : String) ≠ "namespace" := by decide
  have hne5 : ("name" : String) ≠ "value" := by decide
  have hne6 : ("namespace" : String) ≠ "value" := by decide
  unfold check_tag_length
  dsimp only
  split_ifs with h1 h2 h3 h4 <;>
    simp_all [Except.error.injEq, Prod.mk.injEq, eq_comm]

/-- C1 (witness). -/
theorem check_tag_length_first_violation_witness :
    check_tag_length ⟨50, 40, 10, 10⟩ none (some (List.replicate 51 'a')) none =
      Except.error ("tag", 50) :=
  (check_tag_length_first_violation ⟨50, 40, 10, 10⟩ none
    (some (List.replicate 51 'a')) none).2.2.2.2 (by decide) (by decide)

/-- C2 (counterexample): the input `""=foo` parses to the single tag
`=foo`, whose name part is empty — `get_tag_parts` cannot even split it —
so a triple with an empty name is not always discarded. -/
theorem parse_empty_name_counterexample :
    parse_tag_input (some "\"\"=foo") = some ["=foo"] ∧
    get_tag_parts "=foo".toList = none ∧
    "=foo".toList.head? = some '=' := by
  refine ⟨by decide, by decide, by decide⟩

/-- C2 (amended): whenever `parse_tag_input` returns, every tag string
it emits is non-empty as a string (a word whose whole canonical form is
empty is discarded), but its name part can be empty: `""=foo` yields
`=foo`. -/
theorem parse_no_empty_output :
    (∀ (input : Option String) (l : List String), parse_tag_input input = some l →
      ∀ w ∈ l, w ≠ "") ∧
    parse_tag_input (some "\"\"=foo") = some ["=foo"] ∧
    get_tag_parts "=foo".toList = none :=
  ⟨parse_mem_ne_empty, by decide, by decide⟩

/-- C2 (witness). -/
theorem parse_no_empty_output_witness : ("=foo" : String) ≠ "" :=
  parse_no_empty_output.1 (some "\"\"=foo") ["=foo"] (by decide) "=foo" (by decide)

/-- C3 (counterexample): `foo"bar` does not match the grammar
`(namespace ':')? name ('=' value)?` as a whole, yet `get_tag_parts`
succeeds, because `re.match` only anchors the pattern at the start. -/
theorem get_tag_parts_prefix_counterexample :
    matchesGrammar "foo\"bar".toList = false ∧
    get_tag_parts "foo\"bar".toList = some ⟨none, "foo".toList, none⟩ := by
  refine ⟨by decide, by decide⟩

/-- C3 (amended): `get_tag_parts` fails on the empty string and on `=`,
and it fails only on strings that do not match the grammar; but not on
all of them — a string with a matching proper prefix succeeds. -/
theorem get_tag_parts_malformed :
    get_tag_parts "".toList = none ∧
    get_tag_parts "=".toList = none ∧
    (∀ cs : List Char, get_tag_parts cs = none → matchesGrammar cs = false) := by
  refine ⟨by decide, by decide, ?_⟩
  intro cs hnone
  by_contra hg
  have hg' : matchesGrammar cs = true := by
    cases hmg : matchesGrammar cs
    · exact absurd hmg hg
    · rfl
  have := matchesGrammar_isSome hg'
  unfold get_tag_parts at hnone
  rw [Option.map_eq_none'] at hnone
  rw [hnone] at this
  simp at this

/-- C3 (witness). -/
theorem get_tag_parts_malformed_witness : matchesGrammar "=".toList = false :=
  get_tag_parts_malformed.2.2 "=".toList (by decide)

/-- C4 (counterexample): `a` TAB `b` contains none of `,`, `"`, `:`,
`=`, yet the fast path splits only on the space character: the parser
returns the single word `a\tb`, while the sorted whitespace-split — and
the general tokenizing path — both give `a`, `b`.  The same holds for
unicode whitespace in the other direction: `U+00A0` is an ordinary
character to the token patterns but `unicode.strip()` removes it, so on
`a` NBSP the fast path (and the parser) give `a` while the tokenizing
path keeps `a` NBSP. -/
theorem fast_path_counterexample :
    (',' ∉ "a\tb".toList ∧ '"' ∉ "a\tb".toList ∧
      ':' ∉ "a\tb".toList ∧ '=' ∉ "a\tb".toList) ∧
    parse_tag_input (some "a\tb") = some ["a\tb"] ∧
    (sortUnique (wsWords "a\tb".toList)).map (·.asString) = ["a", "b"] ∧
    tokenPath "a\tb".toList = some ["a", "b"] ∧
    fastPath "a\tb".toList = ["a\tb"] ∧
    (isPartChar '\u00A0' = true ∧
      parse_tag_input (some "a\u00A0") = some ["a"] ∧
      fastPath "a\u00A0".toList = ["a"] ∧
      tokenPath "a\u00A0".toList = some ["a\u00A0"]) := by
  refine ⟨by decide, by decide, by decide, by decide, by decide,
    by decide, by decide, by decide, by decide⟩

/-- C4 (amended): on inputs whose characters are ordinary
non-whitespace tag characters or plain spaces — no `,`, `"`, `:`, `=`,
and no whitespace beyond `' '` in either the ASCII `\s` sense or the
`unicode.strip()` sense — `parse_tag_input` returns the sorted
deduplicated non-empty whitespace-split words, and the fast path agrees
with the general tokenizing path; inputs with other whitespace (`a\tb`,
`a` NBSP) separate the two. -/
theorem fast_path_space_only :
    ∀ s : String, SimpleInput s.toList →
      parse_tag_input (some s) =
        some ((sortUnique (wsWords s.toList)).map (·.asString)) ∧
      tokenPath s.toList = some (fastPath s.toList) := by
  intro s hclass
  have hclass' : ∀ c ∈ s.toList, isPartChar c = true ∨ c = ' ' :=
    fun c hc => (hclass c hc).imp And.left id
  have hnl : '\n' ∉ s.toList := by
    intro hmem
    rcases hclass '\n' hmem with ⟨hpc, _⟩ | h
    · simp [isPartChar, isPySpace] at hpc
    · exact absurd h (by decide)
  obtain ⟨hb, hcomma⟩ := tokenizeAux_simple s.toList.length s.toList le_rfl hclass'
  have htp : tokenPath s.toList =
      some ((sortUnique (wsWords s.toList)).map (·.asString)) := by
    unfold tokenPath
    rw [tokenize_no_nl hnl, Option.map_some']
    dsimp only
    rw [hcomma, if_neg (by decide), hb]
  have hfp : fastPath s.toList = (sortUnique (wsWords s.toList)).map (·.asString) := by
    unfold fastPath
    rw [split_strip_eq_wsWords s.toList hclass]
  refine ⟨?_, htp.trans (congrArg some hfp.symm)⟩
  unfold parse_tag_input
  dsimp only
  split
  · rename_i hnil
    rw [hnil]
    decide
  · split
    · exact htp
    · exact congrArg some hfp

/-- C4 (witness). -/
theorem fast_path_space_only_witness :
    parse_tag_input (some "b a") =
      some ((sortUnique (wsWords "b a".toList)).map (·.asString)) ∧
    tokenPath "b a".toList = some (fastPath "b a".toList) :=
  fast_path_space_only "b a" (by decide)


/-- C5 (counterexample): `parse_tag_input` does not return on every
input.  On `a` LF `b,` the first token must be the part `a`, but the
remainder `\n` `b,` then holds an interior newline, which no token
pattern's `(.*)$` tail can match — the `while input:` loop spins for
ever, modelled as `none`.  A newline at the very end of the remainder
is instead allowed by `$` and silently dropped: `a,b` LF parses to
`a`, `b`. -/
theorem parse_diverges_counterexample :
    nextTokenPy 'a' "\nb,".toList = none ∧
    tokenize "a\nb,".toList = none ∧
    parse_tag_input (some "a\nb,") = none ∧
    parse_tag_input (some "a,b\n") = some ["a", "b"] := by
  refine ⟨by decide, by decide, by decide, by decide⟩

/-- C5 (amended): whenever `parse_tag_input` returns — which it fails
to do on tokenized inputs with an interior newline — its output is a
lexicographically sorted sequence of pairwise-distinct non-empty
canonical tag strings; in particular `None`, the empty string and the
lone double quote all yield the empty list. -/
theorem parse_sorted_unique_nonempty :
    (∀ (input : Option String) (l : List String), parse_tag_input input = some l →
      List.Pairwise (· < ·) l ∧ ∀ w ∈ l, w ≠ "") ∧
    parse_tag_input none = some [] ∧
    parse_tag_input (some "") = some [] ∧
    parse_tag_input (some "\"") = some [] := by
  refine ⟨fun input l h => ⟨parse_pairwise_lt input l h, parse_mem_ne_empty input l h⟩,
    by decide, by decide, by decide⟩

/-- C5 (witness). -/
theorem parse_sorted_unique_nonempty_witness : ("a" : String) ≠ "" :=
  (parse_sorted_unique_nonempty.1 (some "b a") ["a", "b"] (by decide)).2 "a" (by decide)

/-- C6 (counterexample): a leading `=` token (empty `left` buffer) is
silently discarded by `build_tag`, not folded into the content: on the
token list `=`, `one` the built tag is `one`, whereas the folding
behaviour described by the claim would produce `"=one"`; accordingly the
full parser maps `=one` to `one`. -/
theorem build_tag_empty_eq_counterexample :
    build_tag [['='], ['o', 'n', 'e']] = ['o', 'n', 'e'] ∧
    build_tag_fold [['='], ['o', 'n', 'e']] = "\"=one\"".toList ∧
    parse_tag_input (some "=one") = some ["one"] := by
  refine ⟨by decide, by decide, by decide⟩

/-- C6 (amended): an `=` token seen while the `left` buffer (respectively
the `middle` buffer, after a `:` separator) is still empty does not act
as a name/value separator — but it is dropped outright rather than kept
as literal content: the built tag is the same as if the token were
absent. -/
theorem build_tag_empty_eq_dropped :
    (∀ ts : List (List Char), build_tag (['='] :: ts) = build_tag ts) ∧
    (∀ ns ts : List (List Char), [':'] ∉ ns → ['='] ∉ ns →
      build_tag (ns ++ [':'] :: ['='] :: ts) = build_tag (ns ++ [':'] :: ts)) :=
  ⟨build_tag_eq_drop_left, build_tag_eq_drop_middle⟩

/-- C6 (witness). -/
theorem build_tag_empty_eq_dropped_witness :
    build_tag ([['a']] ++ [':'] :: ['='] :: [['b']]) =
      build_tag ([['a']] ++ [':'] :: [['b']]) :=
  build_tag_empty_eq_dropped.2 [['a']] [['b']] (by decide) (by decide)

/-- C8: `edit_string_for_tags` renders each record as
`namespace:name=value` with absent parts omitted, wraps each part in
double quotes exactly when it contains `,`, `:` or `=`, and joins the
rendered tags with `, ` when some unquoted part contains a space and
with a single space otherwise; on the names `plain` and `com,ma` it
returns `plain "com,ma"`. -/
theorem edit_string_for_tags_spec :
    (∀ tags : List TagRec, edit_string_for_tags tags = edit_string_spec tags) ∧
    edit_string_for_tags
        [⟨none, some "plain".toList, none⟩, ⟨none, some "com,ma".toList, none⟩] =
      "plain \"com,ma\"".toList := by
  constructor
  · intro tags
    unfold edit_string_for_tags edit_string_spec
    rw [est_foldl]
    simp
  · decide

/-- C9 (witness). -/
theorem get_tag_parts_renderTriple_witness :
    get_tag_parts (renderTriple "ns".toList "na:me".toList "v".toList) =
      some ⟨if ("ns".toList : List Char) = [] then none else some "ns".toList,
        "na:me".toList,
        if ("v".toList : List Char) = [] then none else some "v".toList⟩ :=
  get_tag_parts_renderTriple "ns".toList "na:me".toList "v".toList
    (by decide) (by decide) (by decide) (by decide)

end Tagging
